import Mathlib

/-!
Verification of the opening-book advisor (`src/book.rs`): the `Book` data
model, the bounds validator `is_valid`, the loader `load`, and the lookup
`get_move`, embedded as executable Lean definitions.

Conventions of the embedding:
* `u32` values are `Nat`; the two additions in `is_valid` are the only u32
  arithmetic in the source, and they wrap, so they carry an explicit
  `% 2 ^ 32` (likewise the `drops.len() as u32` truncation).
* The external move-notation parser `GameMove::from_ptn` is kept opaque: the
  loader is parameterised by an arbitrary `parse : List Char → Option GameMove`.
* Strings are lists of characters; whitespace is `Char.isWhitespace`.
* The random choice inside `get_move` is modelled by an arbitrary index `k`
  drawn by the entropy source: `choose` returns the element at a uniformly
  random index of the nonempty pool.
-/

namespace PlaytakBook

/-- Modelled from the spec: the piece kind carried by a `Place` move (the `..`
field of `GameMove::Place` in `src/book.rs`; its variants live in the game
module, which is not part of this core). The validator never inspects it. -/
inductive Piece where
  | flat
  | wall
  | cap
deriving DecidableEq, Repr

/-- The four spread directions matched in `Book::is_valid` (declared in the
game module; the four variants are visible in `src/book.rs`). -/
inductive Direction where
  | north
  | south
  | east
  | west
deriving DecidableEq, Repr

/-- A move: `GameMove::Place { x, y, .. }` or
`GameMove::Spread { x, y, direction, drops }` as matched in `src/book.rs`;
field shapes per the spec's data model (§3). Coordinates are `u32` in the
source, modelled as `Nat`; `drops` holds the per-cell drop counts. Equality
is structural (derived). -/
inductive GameMove where
  | place (x y : Nat) (piece : Piece)
  | spread (x y : Nat) (direction : Direction) (drops : List Nat)
deriving DecidableEq, Repr

instance : Inhabited GameMove := ⟨.place 0 0 .flat⟩

/-- `struct Book { lines: Vec<Vec<GameMove>> }`. -/
structure Book where
  lines : List (List GameMove)
deriving DecidableEq

/-- `Book::is_valid` from `src/book.rs`. The source computes
`let distance = drops.len() as u32` (a truncating cast from `usize`) and the
comparisons `*y + distance < size` / `*x + distance < size` in `u32`, so the
cast and the additions are taken `% 2 ^ 32`. -/
def isValid (m : GameMove) (size : Nat) : Bool :=
  match m with
  | .place x y _ => decide (x < size) && decide (y < size)
  | .spread x y direction drops =>
    if x ≥ size ∨ y ≥ size then
      false
    else
      let distance := drops.length % 2 ^ 32
      match direction with
      | .north => decide ((y + distance) % 2 ^ 32 < size)
      | .south => decide (y ≥ distance)
      | .east => decide ((x + distance) % 2 ^ 32 < size)
      | .west => decide (x ≥ distance)

/-- The pool `matching_next_moves` built inside `Book::get_move`: for each
line, keep its move at index `history.len()` when the line is longer than the
history, starts with the history, and that move passes `is_valid`. -/
def nextMoveCandidates (b : Book) (history : List GameMove) (size : Nat) :
    List GameMove :=
  b.lines.filterMap fun line =>
    if h : history.length < line.length ∧ history <+: line then
      let next := line.get ⟨history.length, h.1⟩
      if isValid next size then some next else none
    else none

/-- `Book::get_move`: `None` on an empty pool, otherwise the element `choose`
picks; the random draw is the index `k % pool.length` for an arbitrary `k`
supplied by the entropy source. -/
def getMove (b : Book) (history : List GameMove) (size : Nat) (k : Nat) :
    Option GameMove :=
  let pool := nextMoveCandidates b history size
  if pool.isEmpty then none
  else pool[k % pool.length]?

/-- Modelled from the spec: tokenization of one line by
`split_ascii_whitespace` (a std function, outside this repository): the
maximal runs of non-whitespace characters, in order. `acc` holds the current
run reversed. -/
def tokensAux : List Char → List Char → List (List Char)
  | [], acc => if acc = [] then [] else [acc.reverse]
  | c :: cs, acc =>
    if c.isWhitespace then
      if acc = [] then tokensAux cs [] else acc.reverse :: tokensAux cs []
    else
      tokensAux cs (c :: acc)

/-- The whitespace-separated tokens of one line of the book file. -/
def tokens (line : List Char) : List (List Char) := tokensAux line []

/-- The inner token loop of `Book::load`: parse tokens in order via the
(opaque) notation parser; the first failing token stops the loop, keeping the
already-parsed prefix of moves. -/
def parseTokens (parse : List Char → Option GameMove) :
    List (List Char) → List GameMove
  | [] => []
  | t :: ts =>
    match parse t with
    | some m => m :: parseTokens parse ts
    | none => []

/-- One iteration of the line loop of `Book::load`: `none` when the line is
skipped — blank per `line.trim().is_empty()` (modelled as all characters
whitespace), or no move parsed — otherwise the `Line` it contributes. -/
def lineToMoves (parse : List Char → Option GameMove) (line : List Char) :
    Option (List GameMove) :=
  if line.all Char.isWhitespace then none
  else
    let moves := parseTokens parse (tokens line)
    if moves.isEmpty then none else some moves

/-- `Book::load` over the successfully read lines of the file. -/
def loadBook (parse : List Char → Option GameMove)
    (input : List (List Char)) : Book :=
  ⟨input.filterMap (lineToMoves parse)⟩

/-- `Book::load` with per-line read results: `reader.lines()` yields
`io::Result<String>` and `let line = line?` propagates the first read
failure to the caller; `Except.error` models an I/O failure on that line
(an unopenable file is the degenerate case of failing before any line). -/
def load (parse : List Char → Option GameMove) :
    List (Except String (List Char)) → Except String Book
  | [] => .ok ⟨[]⟩
  | .error e :: _ => .error e
  | .ok line :: rest =>
    (load parse rest).map fun b =>
      match lineToMoves parse line with
      | none => b
      | some moves => ⟨moves :: b.lines⟩

/-- The spec's §4.2 characterization of bounds validity, read over
mathematical integers (for the refinement claims): `distance` is the exact
length of `drops` and the sums do not wrap. -/
def isValidSpec (m : GameMove) (size : Nat) : Prop :=
  match m with
  | .place x y _ => x < size ∧ y < size
  | .spread x y direction drops =>
    x < size ∧ y < size ∧
    match direction with
    | .north => y + drops.length < size
    | .south => drops.length ≤ y
    | .east => x + drops.length < size
    | .west => drops.length ≤ x

/-- The bound comparisons of `is_valid` stay below `2 ^ 32`, so the u32 cast
of `drops.len()` and the u32 additions are exact. -/
def noOverflow (m : GameMove) : Prop :=
  match m with
  | .place _ _ _ => True
  | .spread x y direction drops =>
    match direction with
    | .north => y + drops.length < 2 ^ 32
    | .south => drops.length < 2 ^ 32
    | .east => x + drops.length < 2 ^ 32
    | .west => drops.length < 2 ^ 32

/-- Spec §4.3 step 1: the candidate lines — longer than the history and
starting with it element-wise. -/
def candidateLines (b : Book) (history : List GameMove) :
    List (List GameMove) :=
  b.lines.filter fun line =>
    decide (history.length < line.length) && decide (history <+: line)

/-- Spec §4.3 step 2: each candidate line's proposed continuation, the move
at index `history.length` (total via `getD`; the index is in bounds for every
candidate line). One entry per candidate line, in book order. -/
def proposedMoves (b : Book) (history : List GameMove) : List GameMove :=
  (candidateLines b history).map fun line =>
    line.getD history.length default

/-- A concrete notation parser used to exercise the loader: two recognised
tokens. -/
def demoParse : List Char → Option GameMove
  | ['a'] => some (.place 0 0 .flat)
  | ['b'] => some (.place 1 0 .flat)
  | _ => none

/-- A North spread whose mathematical bound `y + drops.length` reaches
`2 ^ 32`: the u32 addition in `is_valid` wraps to `0`. -/
def northOverflowSpread : GameMove :=
  .spread 0 1 .north (List.replicate (2 ^ 32 - 1) 1)

/-- An East spread whose mathematical bound `x + drops.length` reaches
`2 ^ 32`: the u32 addition in `is_valid` wraps to `0`. -/
def eastOverflowSpread : GameMove :=
  .spread 1 0 .east (List.replicate (2 ^ 32 - 1) 1)

/-- An East spread with `2 ^ 32` drops: the `drops.len() as u32` cast
truncates the distance to `0`. -/
def eastTruncatedSpread : GameMove :=
  .spread 0 0 .east (List.replicate (2 ^ 32) 1)

example : isValid (.place 2 3 .flat) 5 = true := by decide
example : isValid (.spread 1 1 .north [2]) 5 = true := by decide
example : isValid (.spread 1 4 .north [2]) 5 = false := by decide
example : getMove ⟨[[.place 0 0 .flat, .place 1 0 .flat]]⟩ [.place 0 0 .flat] 5 0
    = some (.place 1 0 .flat) := by decide
example : loadBook demoParse [['a', ' ', 'b'], [' '], ['x'], ['a', ' ', 'x', ' ', 'b']]
    = ⟨[[.place 0 0 .flat, .place 1 0 .flat], [.place 0 0 .flat]]⟩ := by decide

/-- Every element of the candidate pool passed the `is_valid` filter. -/
theorem isValid_of_mem_nextMoveCandidates {b : Book} {history : List GameMove}
    {size : Nat} {m : GameMove} (h : m ∈ nextMoveCandidates b history size) :
    isValid m size = true := by
  rw [nextMoveCandidates, List.mem_filterMap] at h
  obtain ⟨line, -, heq⟩ := h
  split at heq
  · dsimp only at heq
    split at heq
    · cases heq
      assumption
    · cases heq
  · cases heq

/-- C1: for every book, history, board size and random draw, a move returned
by `get_move` passes `is_valid` at that size; an out-of-bounds move is never
returned. -/
theorem getMove_isValid (b : Book) (history : List GameMove) (size k : Nat)
    (m : GameMove) (h : getMove b history size k = some m) :
    isValid m size = true := by
  rw [getMove] at h
  split at h
  · cases h
  · exact isValid_of_mem_nextMoveCandidates
      (by obtain ⟨hi, rfl⟩ := List.getElem?_eq_some.mp h; exact List.getElem_mem hi)

/-- Witness for C1 at a concrete book, history, size and draw. -/
theorem getMove_isValid_witness :
    isValid (GameMove.place 1 0 .flat) 5 = true :=
  getMove_isValid ⟨[[.place 0 0 .flat, .place 1 0 .flat]]⟩ [.place 0 0 .flat]
    5 0 (.place 1 0 .flat) (by decide)

/-- C2: `get_move` is total (it is a function into `Option`), and when no
line of the book is longer than the history and starts with it — i.e. no line
has the history as a strict prefix — it returns `none`, for every size and
random draw. -/
theorem getMove_eq_none_of_no_candidate (b : Book) (history : List GameMove)
    (size k : Nat)
    (h : ∀ line ∈ b.lines, ¬ (history.length < line.length ∧ history <+: line)) :
    getMove b history size k = none := by
  have hpool : nextMoveCandidates b history size = [] := by
    rw [nextMoveCandidates, List.filterMap_eq_nil_iff]
    intro line hline
    rw [dif_neg (h line hline)]
  rw [getMove, hpool]
  rfl

/-- Witness for C2: a book whose one line does not extend the history. -/
theorem getMove_eq_none_of_no_candidate_witness :
    getMove ⟨[[.place 0 0 .flat]]⟩ [.place 1 0 .flat] 5 0 = none :=
  getMove_eq_none_of_no_candidate ⟨[[.place 0 0 .flat]]⟩ [.place 1 0 .flat]
    5 0 (by decide)

/-- C3 counterexample: a North spread with `2 ^ 32 - 1` drops and `y = 1`.
The u32 addition `y + distance` wraps to `0`, so `is_valid` accepts it on a
3×3 board although the spec's mathematical condition `y + distance < size`
fails. -/
theorem isValid_overflow_cex :
    isValid northOverflowSpread 3 = true ∧ ¬ isValidSpec northOverflowSpread 3 := by
  constructor
  · simp only [northOverflowSpread, isValid, List.length_replicate]
    norm_num
  · simp only [northOverflowSpread, isValidSpec, List.length_replicate]
    norm_num

/-- C3 (amended): when the u32 cast of `drops.len()` and the u32 bound
additions do not overflow, `is_valid` holds exactly under the spec's
mathematical conditions: `Place` iff `x < size ∧ y < size`; `Spread` iff
additionally North: `y + distance < size`, South: `y ≥ distance`, East:
`x + distance < size`, West: `x ≥ distance`, with `distance` the length of
`drops`. -/
theorem isValid_iff_isValidSpec (m : GameMove) (size : Nat)
    (h : noOverflow m) : isValid m size = true ↔ isValidSpec m size := by
  cases m with
  | place x y piece => simp [isValid, isValidSpec]
  | spread x y direction drops =>
    by_cases hxy : x ≥ size ∨ y ≥ size
    · cases direction <;>
        · simp only [isValid, isValidSpec, if_pos hxy]
          simp only [Bool.false_eq_true, false_iff]
          rintro ⟨h1, h2, -⟩
          omega
    · cases direction with
      | north =>
        simp only [noOverflow] at h
        simp only [isValid, isValidSpec, if_neg hxy,
          Nat.mod_eq_of_lt (show drops.length < 2 ^ 32 by omega),
          Nat.mod_eq_of_lt h]
        simp only [decide_eq_true_eq]
        omega
      | south =>
        simp only [noOverflow] at h
        simp only [isValid, isValidSpec, if_neg hxy, Nat.mod_eq_of_lt h]
        simp only [decide_eq_true_eq]
        omega
      | east =>
        simp only [noOverflow] at h
        simp only [isValid, isValidSpec, if_neg hxy,
          Nat.mod_eq_of_lt (show drops.length < 2 ^ 32 by omega),
          Nat.mod_eq_of_lt h]
        simp only [decide_eq_true_eq]
        omega
      | west =>
        simp only [noOverflow] at h
        simp only [isValid, isValidSpec, if_neg hxy, Nat.mod_eq_of_lt h]
        simp only [decide_eq_true_eq]
        omega

/-- Witness for the amended C3 at a concrete overflow-free spread. -/
theorem isValid_iff_isValidSpec_witness :
    isValid (GameMove.spread 1 1 .north [2]) 5 = true
      ↔ isValidSpec (GameMove.spread 1 1 .north [2]) 5 :=
  isValid_iff_isValidSpec (.spread 1 1 .north [2]) 5 (by norm_num [noOverflow])

/-- C9: the bound comparisons of `is_valid` are u32 arithmetic. For spreads
whose mathematical bound `coordinate + length(drops)` reaches `2 ^ 32` the
addition wraps (East shown; `2 ^ 32 - 1` drops from `x = 1`), and
`drops.len() as u32` truncates (`2 ^ 32` drops give distance `0`), so
`is_valid` accepts moves the mathematical-integer reading rejects. -/
theorem isValid_u32_wraparound :
    isValid eastOverflowSpread 5 = true
      ∧ ¬ isValidSpec eastOverflowSpread 5
      ∧ 2 ^ 32 ≤ 1 + (List.replicate (2 ^ 32 - 1) (1 : Nat)).length
      ∧ isValid eastTruncatedSpread 5 = true
      ∧ ¬ isValidSpec eastTruncatedSpread 5 := by
  refine ⟨?_, ?_, ?_, ?_, ?_⟩ <;>
    · simp only [eastOverflowSpread, eastTruncatedSpread, isValid, isValidSpec,
        List.length_replicate]
      norm_num

/-- C10: a spread with an empty drop sequence (distance `0`) is accepted in
every direction as soon as its origin square is on the board. -/
theorem isValid_empty_drops (x y size : Nat) (direction : Direction)
    (hx : x < size) (hy : y < size) :
    isValid (.spread x y direction []) size = true := by
  have hxy : ¬ (x ≥ size ∨ y ≥ size) := by omega
  cases direction <;> simp [isValid, hxy] <;> omega

/-- Witness for C10 at the origin of a 1×1 board. -/
theorem isValid_empty_drops_witness :
    isValid (.spread 0 0 .north []) 1 = true :=
  isValid_empty_drops 0 0 1 .north (by decide) (by decide)

/-- C4: the selection pool handed to `choose` is exactly the proposed
continuation of each candidate line, in book order, kept iff it passes
`is_valid` — and therefore without de-duplication: a (valid) move proposed by
`k` candidate lines occurs `k` times in the pool. -/
theorem nextMoveCandidates_eq_proposed_filter (b : Book)
    (history : List GameMove) (size : Nat) :
    nextMoveCandidates b history size
        = (proposedMoves b history).filter (fun m => isValid m size)
      ∧ ∀ m : GameMove, isValid m size = true →
        (nextMoveCandidates b history size).count m
          = (proposedMoves b history).count m := by
  have he : nextMoveCandidates b history size
      = (proposedMoves b history).filter (fun m => isValid m size) := by
    obtain ⟨ls⟩ := b
    simp only [nextMoveCandidates, proposedMoves, candidateLines]
    induction ls with
    | nil => rfl
    | cons ln ls ih =>
      by_cases hc : history.length < ln.length ∧ history <+: ln
      · have hp : (decide (history.length < ln.length)
            && decide (history <+: ln)) = true := by
          simp [hc.1, hc.2]
        have hg : ln[history.length]?.getD default = ln[history.length] := by
          rw [List.getElem?_eq_getElem hc.1]
          rfl
        rw [List.filterMap_cons, dif_pos hc]
        cases hv : isValid ln[history.length] size <;>
          simp [List.filter_cons, hp, hg, hv] <;> simpa using ih
      · have hp : (decide (history.length < ln.length)
            && decide (history <+: ln)) = false := by
          rcases Classical.not_and_iff_or_not_not.mp hc with h1 | h1 <;> simp [h1]
        rw [List.filterMap_cons, dif_neg hc]
        simp only [List.filter_cons, hp, Bool.false_eq_true, if_false]
        exact ih
  refine ⟨he, fun m hm => ?_⟩
  rw [he]
  exact List.count_filter (show (fun m' => isValid m' size) m = true from hm)

/-- A line tokenizes to nothing exactly when it is blank: every character
whitespace (the loader's `line.trim().is_empty()` test). -/
theorem tokens_eq_nil_iff (ln : List Char) :
    tokens ln = [] ↔ ln.all Char.isWhitespace = true := by
  have aux : ∀ cs acc : List Char,
      tokensAux cs acc = [] ↔ (acc = [] ∧ cs.all Char.isWhitespace = true) := by
    intro cs
    induction cs with
    | nil =>
      intro acc
      by_cases ha : acc = [] <;> simp [tokensAux, ha]
    | cons c cs ih =>
      intro acc
      by_cases hw : c.isWhitespace
      · by_cases ha : acc = [] <;> simp [tokensAux, hw, ha, ih]
      · simp [tokensAux, hw, ih]
  simpa using aux ln []

/-- When every token parses, the token loop keeps them all. -/
theorem parseTokens_length_eq (parse : List Char → Option GameMove) :
    ∀ ts, (∀ t ∈ ts, (parse t).isSome = true) →
      (parseTokens parse ts).length = ts.length := by
  intro ts
  induction ts with
  | nil => intro _; rfl
  | cons t ts ih =>
    intro h
    obtain ⟨m, hm⟩ := Option.isSome_iff_exists.mp (h t (by simp))
    simp [parseTokens, hm, ih fun u hu => h u (by simp [hu])]

/-- C5: per-line behaviour of `load`: blank lines are skipped; the first
failing token ends the line keeping the already-parsed prefix; a line with no
parsed move is dropped; a fully parsing (non-blank) line contributes exactly
one `Line` of length its token count. -/
theorem load_per_line (parse : List Char → Option GameMove) :
    (∀ ln rest, ln.all Char.isWhitespace = true →
        loadBook parse (ln :: rest) = loadBook parse rest)
  ∧ (∀ ts1 t ts2, (∀ u ∈ ts1, (parse u).isSome = true) → parse t = none →
        parseTokens parse (ts1 ++ t :: ts2) = ts1.filterMap parse)
  ∧ (∀ ln rest, parseTokens parse (tokens ln) = [] →
        loadBook parse (ln :: rest) = loadBook parse rest)
  ∧ (∀ ln rest, tokens ln ≠ [] → (∀ t ∈ tokens ln, (parse t).isSome = true) →
        (loadBook parse (ln :: rest)).lines
            = parseTokens parse (tokens ln) :: (loadBook parse rest).lines
          ∧ (parseTokens parse (tokens ln)).length = (tokens ln).length) := by
  refine ⟨?_, ?_, ?_, ?_⟩
  · intro ln rest h
    simp [loadBook, lineToMoves, h]
  · intro ts1
    induction ts1 with
    | nil =>
      intro t ts2 _ hf
      simp [parseTokens, hf]
    | cons u ts1 ih =>
      intro t ts2 hall hf
      obtain ⟨m, hm⟩ := Option.isSome_iff_exists.mp (hall u (by simp))
      simp [parseTokens, hm, ih t ts2 (fun v hv => hall v (by simp [hv])) hf]
  · intro ln rest h
    by_cases hb : ln.all Char.isWhitespace <;>
      simp [loadBook, lineToMoves, hb, h]
  · intro ln rest htok hall
    have hb : ¬ ln.all Char.isWhitespace = true := fun hws =>
      htok ((tokens_eq_nil_iff ln).mpr hws)
    have hne : (parseTokens parse (tokens ln)).isEmpty = false := by
      cases hts : tokens ln with
      | nil => exact absurd hts htok
      | cons t ts =>
        obtain ⟨m, hm⟩ := Option.isSome_iff_exists.mp (hall t (by rw [hts]; simp))
        simp [parseTokens, hm]
    refine ⟨?_, parseTokens_length_eq parse _ hall⟩
    simp [loadBook, lineToMoves, hb, hne]

/-- C6: `load` fails exactly when reading fails: it returns the book when
every line was read, and surfaces the I/O error otherwise — the content of
the lines (however malformed for `parse`) never produces an error. -/
theorem load_error_iff_read_error (parse : List Char → Option GameMove) :
    (∀ input : List (List Char),
        load parse (input.map Except.ok) = .ok (loadBook parse input))
  ∧ (∀ input : List (Except String (List Char)),
        (∃ b, load parse input = .ok b) ↔ (∀ r ∈ input, ∃ ln, r = .ok ln)) := by
  constructor
  · intro input
    induction input with
    | nil => rfl
    | cons ln rest ih =>
      simp only [List.map_cons, load, ih, Except.map]
      cases h : lineToMoves parse ln <;> simp [loadBook, List.filterMap_cons, h]
  · intro input
    induction input with
    | nil => simp [load]
    | cons r rest ih =>
      cases r with
      | error e => simp [load]
      | ok ln =>
        simp only [load, List.forall_mem_cons]
        have hmap : ∀ f : Book → Book,
            ((∃ b, (load parse rest).map f = Except.ok b)
              ↔ ∃ b, load parse rest = .ok b) := by
          intro f
          cases hrest : load parse rest <;> simp [Except.map]
        constructor
        · intro hx
          exact ⟨⟨ln, rfl⟩, ih.mp ((hmap _).mp hx)⟩
        · rintro ⟨-, hrest⟩
          exact (hmap _).mpr (ih.mpr hrest)

/-- C7: every line of a loaded book is non-empty, and no validity filtering
happens at load time: a parsed move enters the book even when it is out of
bounds for a given board size (here a 10th-column placement kept although it
fails `is_valid` at size 5). -/
theorem loadBook_nonempty_lines_no_validity_filter :
    (∀ (parse : List Char → Option GameMove) (input : List (List Char))
        (ms : List GameMove), ms ∈ (loadBook parse input).lines → 1 ≤ ms.length)
  ∧ (loadBook (fun _ => some (GameMove.place 9 9 .flat)) [['x']]).lines
        = [[GameMove.place 9 9 .flat]]
  ∧ isValid (GameMove.place 9 9 .flat) 5 = false := by
  refine ⟨?_, by decide, by decide⟩
  intro parse input ms h
  rw [loadBook, List.mem_filterMap] at h
  obtain ⟨ln, -, hln⟩ := h
  rw [lineToMoves] at hln
  split at hln
  · cases hln
  · dsimp only at hln
    split at hln
    · cases hln
    · cases hln
      rename_i hne
      cases hpt : parseTokens parse (tokens ln) with
      | nil => rw [hpt] at hne; simp at hne
      | cons m ms' => simp

/-- C8: loading is a pure function of the file content: two loads of equal
content produce books with equal lines. -/
theorem loadBook_deterministic (parse : List Char → Option GameMove)
    (c1 c2 : List (List Char)) (h : c1 = c2) :
    (loadBook parse c1).lines = (loadBook parse c2).lines := by
  rw [h]

/-- Witness for C8 on a concrete one-line file. -/
theorem loadBook_deterministic_witness :
    (loadBook demoParse [['a']]).lines = (loadBook demoParse [['a']]).lines :=
  loadBook_deterministic demoParse [['a']] [['a']] rfl

end PlaytakBook
